import Mathlib

/-!
Verification of the incremental documentation build engine
(pipelines/2-git-driven/pipeline.py and pipelines/6-full-stack/pipeline.py).

The Python sources are shallowly embedded below:
* strings are Lean String values and Python string operations
  (endswith, rstrip, substring containment, replace of the path
  separator) are re-implemented on the underlying character lists;
* Python dicts become association lists with overwrite-on-assign
  semantics; Python sets become insertion-ordered duplicate-free lists
  (only membership is ever relied upon);
* the md5 content digest is modelled as the raw content value itself
  (the spec treats hash collisions as negligible, so equal digest is
  identified with equal content);
* fallible operations (reading and JSON-parsing the persisted cache
  document, parsing one source file) are modelled with Except, the
  per-file parse outcome being carried as a field of the file record;
* the breadth-first affected-set loop is embedded with explicit fuel
  returning Option; a theorem shows a computable fuel bound always
  suffices, which is exactly the termination guarantee of the source
  loop.
-/

/-! ## Python string primitives -/

/-- Python startswith on character lists: the first list is a leading
segment of the second. -/
def startsWithL : List Char → List Char → Bool
  | [], _ => true
  | _ :: _, [] => false
  | a :: as, b :: bs => a == b && startsWithL as bs

/-- Python endswith on character lists, via startswith on reversals. -/
def endsWithL (s suf : List Char) : Bool :=
  startsWithL suf.reverse s.reverse

/-- Python str.endswith. -/
def strEndsWith (s suf : String) : Bool :=
  endsWithL s.data suf.data

/-- Python substring containment (the needle occurs contiguously in the
haystack), as used by the in operator on strings. -/
def containsSub : List Char → List Char → Bool
  | needle, [] => needle.isEmpty
  | needle, b :: bs => startsWithL needle (b :: bs) || containsSub needle bs

/-- Python str.rstrip(chars): remove trailing characters belonging to the
given character set (not the suffix string). -/
def pyRstrip (s : String) (chars : List Char) : String :=
  String.mk ((s.data.reverse.dropWhile (fun c => chars.contains c)).reverse)

/-- str.replace(os.sep, chr) for the single-character POSIX separator. -/
def sepToDot (p : String) : String :=
  String.mk (p.data.map (fun c => if c = '/' then '.' else c))

/-! ## Module id derivation (pipelines/2-git-driven/pipeline.py)

Source, lines 54 and 72: the module id of a relative path is
str(path).replace(os.sep, dot).rstrip(dot p y). -/

def moduleIdOfPath (p : String) : String :=
  pyRstrip (sepToDot p) ['.', 'p', 'y']

/-- Modelled from the spec: path-aware suffix removal, i.e. stripping
exactly the three-character source suffix when the path ends with it.
The spec (section 4.3 and the section 9 open question) assumes this
behavior; the source instead uses character-set rstrip. This definition
exists only to be compared with moduleIdOfPath. -/
def pathAwareModuleId (p : String) : String :=
  let q := sepToDot p
  if strEndsWith q ".py" then String.mk (q.data.take (q.data.length - 3)) else q

/-- Python set.add on an insertion-ordered list model of a set. -/
def setAdd (s : List String) (x : String) : List String :=
  if x ∈ s then s else s ++ [x]

/-- Lines 69-73 of pipelines/2-git-driven/pipeline.py: collect the module
ids of the changed files whose path ends in the Python suffix. -/
def changedModules (changedFiles : List String) : List String :=
  changedFiles.foldl
    (fun acc f => if strEndsWith f ".py" then setAdd acc (moduleIdOfPath f) else acc) []

/-- C7: the ArtifactId used by graph construction and resolution is NOT
computed by path-aware suffix removal: rstrip removes trailing characters
drawn from the set {dot, p, y}, so the stem happy is over-trimmed to ha,
while path-aware removal keeps happy. The claim is right about the
intended behavior (the spec flags the discrepancy explicitly) and the
code diverges at this input. -/
theorem moduleId_rstrip_divergence :
    moduleIdOfPath "happy.py" = "ha" ∧
    pathAwareModuleId "happy.py" = "happy" ∧
    changedModules ["happy.py"] = ["ha"] ∧
    moduleIdOfPath "pkg/mod.py" = "pkg.mod" := by decide

/-! ## Dependency graph and affected-set resolution
(pipelines/2-git-driven/pipeline.py, lines 67-89)

The graph is dep_graph: module -> set of dependents, modelled as an
association list. The while loop of resolve_affected is embedded with
explicit fuel; bfsLoop_term below shows a computable fuel bound always
suffices, which is the termination guarantee of the source loop. -/

abbrev DepGraph := List (String × List String)

/-- dep_graph.get(current, empty set). -/
def depGet (g : DepGraph) (m : String) : List String :=
  match g.find? (fun p => p.1 == m) with
  | some p => p.2
  | none => []

/-- The inner for loop of resolve_affected: for each dependent not yet in
affected, append it to both the queue and the affected set. -/
def addDeps : List String → List String → List String → List String × List String
  | [], queue, affected => (queue, affected)
  | d :: ds, queue, affected =>
    if d ∈ affected then addDeps ds queue affected
    else addDeps ds (queue ++ [d]) (affected ++ [d])

/-- The while loop of resolve_affected: pop the queue head, skip it when
already visited, otherwise mark it visited and enqueue its unseen
dependents. Fuel bounds the number of iterations; none signals fuel
exhaustion and is ruled out by bfsLoop_term. -/
def bfsLoop (g : DepGraph) : Nat → List String → List String → List String → Option (List String)
  | fuel, visited, queue, affected =>
    match queue with
    | [] => some affected
    | current :: rest =>
      match fuel with
      | 0 => none
      | fuel' + 1 =>
        if current ∈ visited then bfsLoop g fuel' visited rest affected
        else bfsLoop g fuel' (current :: visited)
          (addDeps (depGet g current) rest affected).1
          (addDeps (depGet g current) rest affected).2

theorem bfsLoop_nil (g : DepGraph) (fuel : Nat) (visited affected : List String) :
    bfsLoop g fuel visited [] affected = some affected := by
  cases fuel with
  | zero => rfl
  | succ n => rfl

theorem bfsLoop_succ_cons (g : DepGraph) (fuel : Nat)
    (visited affected rest : List String) (c : String) :
    bfsLoop g (fuel + 1) visited (c :: rest) affected =
      if c ∈ visited then bfsLoop g fuel visited rest affected
      else bfsLoop g fuel (c :: visited)
        (addDeps (depGet g c) rest affected).1
        (addDeps (depGet g c) rest affected).2 := rfl

theorem addDeps_fst_length (ds queue affected : List String) :
    (addDeps ds queue affected).1.length ≤ queue.length + ds.length := by
  induction ds generalizing queue affected with
  | nil => simp [addDeps]
  | cons d ds ih =>
    simp only [addDeps]
    split
    · exact le_trans (ih queue affected) (by simp)
    · have := ih (queue ++ [d]) (affected ++ [d])
      simp only [List.length_append, List.length_cons, List.length_nil] at this ⊢
      omega

theorem addDeps_fst_mem (ds queue affected : List String) {x : String}
    (hx : x ∈ (addDeps ds queue affected).1) : x ∈ queue ∨ x ∈ ds := by
  induction ds generalizing queue affected with
  | nil => exact Or.inl (by simpa [addDeps] using hx)
  | cons d ds ih =>
    simp only [addDeps] at hx
    split at hx
    · rcases ih queue affected hx with h | h
      · exact Or.inl h
      · exact Or.inr (List.mem_cons_of_mem _ h)
    · rcases ih (queue ++ [d]) (affected ++ [d]) hx with h | h
      · rcases List.mem_append.mp h with h | h
        · exact Or.inl h
        · simp only [List.mem_singleton] at h
          exact Or.inr (h ▸ List.mem_cons_self d ds)
      · exact Or.inr (List.mem_cons_of_mem _ h)

theorem addDeps_snd_mono (ds queue affected : List String) {x : String}
    (hx : x ∈ affected) : x ∈ (addDeps ds queue affected).2 := by
  induction ds generalizing queue affected with
  | nil => simpa [addDeps] using hx
  | cons d ds ih =>
    simp only [addDeps]
    split
    · exact ih queue affected hx
    · exact ih (queue ++ [d]) (affected ++ [d]) (List.mem_append_left _ hx)

/-- The affected set only grows: anything already in it is in the result. -/
theorem bfsLoop_mono (g : DepGraph) (x : String) :
    ∀ (fuel : Nat) (visited queue affected r : List String),
      x ∈ affected → bfsLoop g fuel visited queue affected = some r → x ∈ r := by
  intro fuel
  induction fuel with
  | zero =>
    intro visited queue affected r hx h
    match queue with
    | [] => rw [bfsLoop_nil] at h; exact (Option.some_inj.mp h) ▸ hx
    | c :: rest => exact absurd h (by simp [bfsLoop])
  | succ n ih =>
    intro visited queue affected r hx h
    match queue with
    | [] => rw [bfsLoop_nil] at h; exact (Option.some_inj.mp h) ▸ hx
    | c :: rest =>
      rw [bfsLoop_succ_cons] at h
      split at h
      · exact ih _ _ _ _ hx h
      · exact ih _ _ _ _ (addDeps_snd_mono _ _ _ hx) h

/-! ### Termination of the resolver loop -/

/-- Total number of dependent entries recorded in the graph. -/
def depWeight (g : DepGraph) : Nat := ((g.map Prod.snd).flatten).length

theorem depGet_mem_flatten {g : DepGraph} {m x : String}
    (hx : x ∈ depGet g m) : x ∈ (g.map Prod.snd).flatten := by
  unfold depGet at hx
  cases h : g.find? (fun p => p.1 == m) with
  | none => rw [h] at hx; cases hx
  | some p =>
    rw [h] at hx
    exact List.mem_flatten.mpr
      ⟨p.2, List.mem_map.mpr ⟨p, List.mem_of_find?_eq_some h, rfl⟩, hx⟩

theorem depGet_length_le (g : DepGraph) (m : String) :
    (depGet g m).length ≤ depWeight g := by
  unfold depGet depWeight
  cases h : g.find? (fun p => p.1 == m) with
  | none => simp
  | some p =>
    have hm : p.2.length ∈ (g.map Prod.snd).map List.length :=
      List.mem_map.mpr ⟨p.2, List.mem_map.mpr ⟨p, List.mem_of_find?_eq_some h, rfl⟩, rfl⟩
    rw [List.length_flatten]
    exact List.single_le_sum (fun y _ => Nat.zero_le y) _ hm

/-- Number of universe nodes not yet visited. -/
def unvisCount (univ visited : List String) : Nat :=
  (univ.filter (fun x => decide (x ∉ visited))).length

theorem length_filter_ne_lt {l : List String} {c : String} (hc : c ∈ l) :
    (l.filter (fun x => decide (x ≠ c))).length < l.length := by
  induction l with
  | nil => cases hc
  | cons a t ih =>
    by_cases hac : a = c
    · have hd : (decide (a ≠ c)) = false := by simp [hac]
      simp only [List.filter_cons, hd, if_false, List.length_cons]
      exact Nat.lt_succ_of_le (List.length_filter_le _ t)
    · have hct : c ∈ t := by
        rcases List.mem_cons.mp hc with h | h
        · exact absurd h.symm hac
        · exact h
      have hd : (decide (a ≠ c)) = true := by simp [hac]
      simp only [List.filter_cons, hd, if_true, List.length_cons]
      exact Nat.succ_lt_succ (ih hct)

theorem unvisCount_cons_lt {univ visited : List String} {c : String}
    (hcu : c ∈ univ) (hcv : c ∉ visited) :
    unvisCount univ (c :: visited) < unvisCount univ visited := by
  unfold unvisCount
  have heq : univ.filter (fun x => decide (x ∉ c :: visited))
      = (univ.filter (fun x => decide (x ∉ visited))).filter (fun x => decide (x ≠ c)) := by
    rw [List.filter_filter]
    apply List.filter_congr
    intro x _
    by_cases h1 : x = c <;> by_cases h2 : x ∈ visited <;> simp [h1, h2, List.mem_cons]
  rw [heq]
  exact length_filter_ne_lt (List.mem_filter.mpr ⟨hcu, by simpa using hcv⟩)

/-- Termination of the resolver loop: whenever every queued node lies in a
finite universe that also contains every recorded dependent, a fuel of
queue length plus (depWeight + 1) times the number of unvisited universe
nodes is enough for the loop to finish. Visited strictly grows on every
expansion and a node is never expanded twice, so cycles cannot cause
infinite expansion. -/
theorem bfsLoop_term (g : DepGraph) (univ : List String)
    (hU : ∀ x ∈ (g.map Prod.snd).flatten, x ∈ univ) :
    ∀ (fuel : Nat) (visited queue affected : List String),
      (∀ x ∈ queue, x ∈ univ) →
      queue.length + (depWeight g + 1) * unvisCount univ visited ≤ fuel →
      (bfsLoop g fuel visited queue affected).isSome = true := by
  intro fuel
  induction fuel with
  | zero =>
    intro visited queue affected hq hm
    match queue with
    | [] => rw [bfsLoop_nil]; rfl
    | c :: rest => simp only [List.length_cons] at hm; omega
  | succ n ih =>
    intro visited queue affected hq hm
    match queue with
    | [] => rw [bfsLoop_nil]; rfl
    | c :: rest =>
      rw [bfsLoop_succ_cons]
      by_cases hcv : c ∈ visited
      · rw [if_pos hcv]
        apply ih visited rest affected (fun x hx => hq x (List.mem_cons_of_mem _ hx))
        simp only [List.length_cons] at hm
        omega
      · rw [if_neg hcv]
        have hcu : c ∈ univ := hq c (List.mem_cons_self c rest)
        have hcnt : unvisCount univ (c :: visited) + 1 ≤ unvisCount univ visited :=
          unvisCount_cons_lt hcu hcv
        apply ih
        · intro x hx
          rcases addDeps_fst_mem _ _ _ hx with h | h
          · exact hq x (List.mem_cons_of_mem _ h)
          · exact hU x (depGet_mem_flatten h)
        · have hlen : (addDeps (depGet g c) rest affected).1.length
              ≤ rest.length + depWeight g := by
            have h1 := addDeps_fst_length (depGet g c) rest affected
            have h2 := depGet_length_le g c
            omega
          have hmul : (depWeight g + 1) * (unvisCount univ (c :: visited) + 1)
              ≤ (depWeight g + 1) * unvisCount univ visited :=
            Nat.mul_le_mul_left _ hcnt
          rw [Nat.mul_add, Nat.mul_one] at hmul
          simp only [List.length_cons] at hm
          omega

/-- Every node that can ever enter the queue: the seeds plus every
recorded dependent. -/
def univOf (g : DepGraph) (changed : List String) : List String :=
  changed ++ (g.map Prod.snd).flatten

/-- A fuel value provably sufficient for bfsLoop on this input. -/
def suffFuel (g : DepGraph) (changed : List String) : Nat :=
  changed.length + (depWeight g + 1) * (univOf g changed).length

/-- Lines 67-89 of pipelines/2-git-driven/pipeline.py: derive the changed
module ids from the changed file list, then run the breadth-first loop
(the getD fallback is dead by bfsLoop_term and suffFuel). -/
def resolveAffected (g : DepGraph) (changedFiles : List String) : List String :=
  (bfsLoop g (suffFuel g (changedModules changedFiles)) []
    (changedModules changedFiles) (changedModules changedFiles)).getD
    (changedModules changedFiles)

/-- The two-node import cycle of the claim: A imports B and B imports A,
recorded as reverse (dependent) edges. -/
def cycleGraph : DepGraph := [("A", ["B"]), ("B", ["A"])]

/-- C4: affected-set resolution terminates on every finite dependency
graph: the computable fuel suffFuel always suffices for the loop to
finish (visited strictly grows and no node is expanded twice), and on the
two-node cycle A imports B, B imports A the resolved set for either seed
is exactly the finite set containing A and B. -/
theorem bfs_terminates_and_cycle_resolves :
    (∀ (g : DepGraph) (changed : List String),
        (bfsLoop g (suffFuel g changed) [] changed changed).isSome = true) ∧
    resolveAffected cycleGraph ["A.py"] = ["A", "B"] ∧
    resolveAffected cycleGraph ["B.py"] = ["B", "A"] ∧
    (∀ x, x ∈ resolveAffected cycleGraph ["A.py"] ↔ x = "A" ∨ x = "B") ∧
    (∀ x, x ∈ resolveAffected cycleGraph ["B.py"] ↔ x = "A" ∨ x = "B") := by
  have hA : resolveAffected cycleGraph ["A.py"] = ["A", "B"] := by decide
  have hB : resolveAffected cycleGraph ["B.py"] = ["B", "A"] := by decide
  refine ⟨?_, hA, hB, ?_, ?_⟩
  · intro g changed
    apply bfsLoop_term g (univOf g changed)
    · intro x hx; exact List.mem_append_right _ hx
    · intro x hx; exact List.mem_append_left _ hx
    · have hu : unvisCount (univOf g changed) [] = (univOf g changed).length := by
        simp [unvisCount]
      rw [hu]
      exact le_of_eq rfl
  · intro x
    rw [hA]
    simp only [List.mem_cons, List.not_mem_nil, or_false]
  · intro x
    rw [hB]
    simp only [List.mem_cons, List.not_mem_nil, or_false]
    exact or_comm

/-- C1: the affected set returned by resolve_affected contains every
changed module id (the set is seeded with the changed modules and only
ever grows). -/
theorem resolveAffected_contains_changedModules
    (g : DepGraph) (changedFiles : List String) (m : String)
    (hm : m ∈ changedModules changedFiles) :
    m ∈ resolveAffected g changedFiles := by
  unfold resolveAffected
  cases h : bfsLoop g (suffFuel g (changedModules changedFiles)) []
      (changedModules changedFiles) (changedModules changedFiles) with
  | none => simpa using hm
  | some r =>
    simpa using bfsLoop_mono g m _ _ _ _ r hm h

/-- Witness for C1 at a concrete input. -/
theorem resolveAffected_contains_changedModules_app :
    "A" ∈ changedModules ["A.py"] ∧ "A" ∈ resolveAffected cycleGraph ["A.py"] :=
  ⟨by decide, resolveAffected_contains_changedModules cycleGraph ["A.py"] "A" (by decide)⟩

/-! ## Ignore patterns (pipelines/6-full-stack/pipeline.py, lines 46-48)

_should_skip converts the path to a string and tests whether any
configured pattern occurs in it with the Python in operator, i.e. plain
substring containment. -/

/-- Lines 46-48: any(p in rel for p in ignore_patterns). -/
def shouldSkip (patterns : List String) (rel : String) : Bool :=
  patterns.any (fun p => containsSub p.data rel.data)

/-- Modelled from the spec: the path components of a path, splitting on
the separator. Used only to state the component-match reading of the
claim, which the source does not implement. -/
def splitOnChar (sep : Char) : List Char → List (List Char)
  | [] => [[]]
  | c :: cs =>
    match splitOnChar sep cs with
    | [] => [[]]
    | h :: t => if c = sep then [] :: h :: t else (c :: h) :: t

/-- Modelled from the spec: the list of path components of a path. -/
def pathComponents (p : String) : List String :=
  (splitOnChar '/' p.data).map String.mk

theorem startsWithL_iff (n : List Char) :
    ∀ h : List Char, startsWithL n h = true ↔ ∃ post, h = n ++ post := by
  induction n with
  | nil =>
    intro h
    constructor
    · intro _
      exact ⟨h, rfl⟩
    · intro _
      cases h <;> rfl
  | cons a as ih =>
    intro h
    match h with
    | [] =>
      simp only [startsWithL]
      constructor
      · intro hfalse; cases hfalse
      · rintro ⟨post, hpost⟩; cases hpost
    | b :: bs =>
      simp only [startsWithL, Bool.and_eq_true, beq_iff_eq]
      constructor
      · rintro ⟨hab, hs⟩
        obtain ⟨post, hpost⟩ := (ih bs).mp hs
        exact ⟨post, by simp [hab, hpost]⟩
      · rintro ⟨post, hpost⟩
        simp only [List.cons_append, List.cons.injEq] at hpost
        exact ⟨hpost.1.symm, (ih bs).mpr ⟨post, hpost.2⟩⟩

theorem containsSub_iff (n : List Char) :
    ∀ h : List Char, containsSub n h = true ↔ ∃ pre post, h = pre ++ n ++ post := by
  intro h
  induction h with
  | nil =>
    simp only [containsSub, List.isEmpty_iff]
    constructor
    · intro hn; exact ⟨[], [], by simp [hn]⟩
    · rintro ⟨pre, post, hsplit⟩
      rcases List.append_eq_nil.mp (List.append_eq_nil.mp hsplit.symm).1 with ⟨_, hn⟩
      exact hn
  | cons b bs ih =>
    simp only [containsSub, Bool.or_eq_true]
    constructor
    · rintro (hstart | hrest)
      · obtain ⟨post, hpost⟩ := (startsWithL_iff n (b :: bs)).mp hstart
        exact ⟨[], post, by simp [hpost]⟩
      · obtain ⟨pre, post, hsplit⟩ := ih.mp hrest
        exact ⟨b :: pre, post, by simp [hsplit]⟩
    · rintro ⟨pre, post, hsplit⟩
      match pre with
      | [] =>
        left
        simp only [List.nil_append] at hsplit
        exact (startsWithL_iff n (b :: bs)).mpr ⟨post, hsplit⟩
      | c :: pre' =>
        right
        simp only [List.cons_append, List.cons.injEq] at hsplit
        exact ih.mpr ⟨pre', post, hsplit.2⟩

/-- Structure of a character-level split: the list is nonempty, its head
is a leading segment of the input and every later component occurs
contiguously inside the input. -/
theorem splitOnChar_structure (sep : Char) :
    ∀ l : List Char, ∃ h t, splitOnChar sep l = h :: t ∧
      (∃ post, l = h ++ post) ∧
      ∀ x ∈ t, ∃ pre post, l = pre ++ x ++ post := by
  intro l
  induction l with
  | nil => exact ⟨[], [], rfl, ⟨[], rfl⟩, by simp⟩
  | cons c cs ih =>
    obtain ⟨h, t, heq, ⟨post, hpost⟩, ht⟩ := ih
    by_cases hc : c = sep
    · refine ⟨[], h :: t, ?_, ⟨c :: cs, rfl⟩, ?_⟩
      · simp [splitOnChar, heq, hc]
      · intro x hx
        rcases List.mem_cons.mp hx with hxh | hxt
        · exact ⟨[c], post, by simp [hxh, hpost]⟩
        · obtain ⟨pre, post', hsplit⟩ := ht x hxt
          exact ⟨c :: pre, post', by simp [hsplit]⟩
    · refine ⟨c :: h, t, ?_, ⟨post, by simp [hpost]⟩, ?_⟩
      · simp [splitOnChar, heq, hc]
      · intro x hxt
        obtain ⟨pre, post', hsplit⟩ := ht x hxt
        exact ⟨c :: pre, post', by simp [hsplit]⟩

theorem mem_splitOnChar_sub {sep : Char} {l x : List Char}
    (hx : x ∈ splitOnChar sep l) : ∃ pre post, l = pre ++ x ++ post := by
  obtain ⟨h, t, heq, ⟨post, hpost⟩, ht⟩ := splitOnChar_structure sep l
  rw [heq] at hx
  rcases List.mem_cons.mp hx with hxh | hxt
  · exact ⟨[], post, by simp [hxh, hpost]⟩
  · exact ht x hxt

/-- C8 counterexample: with the default-style pattern venv, the path
myvenv/app.py is excluded although venv is not one of its path
components, refuting the claimed only-if direction of the iff. -/
theorem ignore_pattern_substring_cex :
    shouldSkip ["venv"] "myvenv/app.py" = true ∧
    ("venv" ∈ pathComponents "myvenv/app.py" → False) := by decide

/-- C8 amended: a configured pattern excludes a file iff the pattern
occurs as a contiguous substring of the path string (Python in operator),
not iff it appears as a path component; component occurrence is
sufficient for exclusion but not necessary. -/
theorem shouldSkip_iff_substring (patterns : List String) (path : String) :
    (shouldSkip patterns path = true ↔
      ∃ p ∈ patterns, ∃ pre post, path.data = pre ++ p.data ++ post) ∧
    (∀ p ∈ patterns, p ∈ pathComponents path → shouldSkip patterns path = true) := by
  constructor
  · simp only [shouldSkip, List.any_eq_true]
    constructor
    · rintro ⟨p, hp, hc⟩
      exact ⟨p, hp, (containsSub_iff p.data path.data).mp hc⟩
    · rintro ⟨p, hp, hsub⟩
      exact ⟨p, hp, (containsSub_iff p.data path.data).mpr hsub⟩
  · intro p hp hcomp
    obtain ⟨l, hl, hlp⟩ := List.mem_map.mp hcomp
    have hdata : p.data = l := by rw [← hlp]
    have hsub : ∃ pre post, path.data = pre ++ p.data ++ post := by
      rw [hdata]
      exact mem_splitOnChar_sub hl
    simp only [shouldSkip, List.any_eq_true]
    exact ⟨p, hp, (containsSub_iff p.data path.data).mpr hsub⟩

/-- Witness for C8 amended at a concrete input. -/
theorem shouldSkip_iff_substring_app :
    shouldSkip ["node_modules"] "x/node_modules/y.js" = true :=
  (shouldSkip_iff_substring ["node_modules"] "x/node_modules/y.js").2
    "node_modules" (by decide) (by decide)

/-! ## Change detection and the fingerprint store
(pipelines/6-full-stack/pipeline.py, lines 52-80)

The fresh cache is a Python dict rel -> md5 hex digest, modelled as an
association list with overwrite-on-assign; the digest of a file is
modelled by its raw content value. The nested loop for ext in extensions
/ for filepath in rglob is flattened into one pass over the
extension-file pairs in source order. -/

abbrev Cache := List (String × Nat)

/-- Python dict assignment d[k] = v. -/
def dictSet (d : Cache) (k : String) (v : Nat) : Cache :=
  d.filter (fun e => !(e.1 == k)) ++ [(k, v)]

/-- Python dict lookup d.get(k): some value or none. -/
def dictLookup (d : Cache) (k : String) : Option Nat :=
  (d.find? (fun e => e.1 == k)).map (fun e => e.2)

/-- One tracked source file: its root-relative path, its raw content
(standing in for the md5 digest of its bytes) and the outcome of parsing
it as Python source with ast.parse, an error message or a summary value. -/
structure FileEntry where
  rel : String
  content : Nat
  parse : Except String Nat

theorem dictLookup_cons (e : String × Nat) (d : Cache) (p : String) :
    dictLookup (e :: d) p = if e.1 = p then some e.2 else dictLookup d p := by
  by_cases h : e.1 = p
  · simp [dictLookup, List.find?_cons, h]
  · simp [dictLookup, List.find?_cons, h]

theorem dictLookup_dictSet (d : Cache) (k p : String) (v : Nat) :
    dictLookup (dictSet d k v) p = if p = k then some v else dictLookup d p := by
  induction d with
  | nil =>
    simp only [dictSet, List.filter_nil, List.nil_append, dictLookup_cons]
    by_cases hpk : p = k
    · simp [hpk]
    · rw [if_neg (fun h => hpk h.symm), if_neg hpk]
  | cons e d ih =>
    by_cases hek : e.1 = k
    · have hset : dictSet (e :: d) k v = dictSet d k v := by
        simp [dictSet, List.filter_cons, hek]
      rw [hset, ih]
      by_cases hpk : p = k
      · simp [hpk]
      · have hep : ¬ e.1 = p := fun h => hpk ((h ▸ hek : p = k))
        rw [if_neg hpk, if_neg hpk, dictLookup_cons, if_neg hep]
    · have hset : dictSet (e :: d) k v = e :: dictSet d k v := by
        simp [dictSet, List.filter_cons, hek]
      rw [hset, dictLookup_cons, dictLookup_cons]
      by_cases hep : e.1 = p
      · have hpk : ¬ p = k := fun h => hek (hep.trans h)
        rw [if_pos hep, if_neg hpk, if_pos hep]
      · rw [if_neg hep, if_neg hep, ih]

/-- Loop body, lines 64-71: a file whose name matches the extension glob
and which is not skipped has its digest recorded unconditionally in the
fresh cache, and is reported changed iff the previous store holds no
identical digest for its path. -/
def detectStep (root : String) (ignore : List String) (old : Cache)
    (ef : String × FileEntry) (st : Cache × List String) : Cache × List String :=
  if strEndsWith ef.2.rel ef.1 = true then
    if shouldSkip ignore (root ++ "/" ++ ef.2.rel) = true then st
    else if dictLookup old ef.2.rel = some ef.2.content then
      (dictSet st.1 ef.2.rel ef.2.content, st.2)
    else (dictSet st.1 ef.2.rel ef.2.content, st.2 ++ [ef.2.rel])
  else st

def detectGo (root : String) (ignore : List String) (old : Cache) :
    List (String × FileEntry) → Cache × List String → Cache × List String
  | [], st => st
  | ef :: rest, st => detectGo root ignore old rest (detectStep root ignore old ef st)

/-- Lines 60-73: enumerate the tree once per configured extension,
starting from an empty fresh cache and an empty changed list. -/
def detectCore (root : String) (exts ignore : List String)
    (files : List FileEntry) (old : Cache) : Cache × List String :=
  detectGo root ignore old
    (exts.flatMap (fun ext => files.map (fun f => (ext, f)))) ([], [])

/-- An extension-file pair survives the enumeration filters. -/
def enumHit (root : String) (ignore : List String) (ef : String × FileEntry) : Prop :=
  strEndsWith ef.2.rel ef.1 = true ∧
    shouldSkip ignore (root ++ "/" ++ ef.2.rel) = false

theorem mem_pairs_iff (exts : List String) (files : List FileEntry)
    (ef : String × FileEntry) :
    ef ∈ exts.flatMap (fun ext => files.map (fun f => (ext, f))) ↔
      ef.1 ∈ exts ∧ ef.2 ∈ files := by
  simp only [List.mem_flatMap, List.mem_map]
  constructor
  · rintro ⟨ext, hext, f, hf, hef⟩
    rw [← hef]
    exact ⟨hext, hf⟩
  · rintro ⟨h1, h2⟩
    exact ⟨ef.1, h1, ef.2, h2, rfl⟩

theorem detectStep_lookup_isSome (root : String) (ignore : List String) (old : Cache)
    (ef : String × FileEntry) (st : Cache × List String) (p : String) :
    ((dictLookup (detectStep root ignore old ef st).1 p).isSome = true ↔
      (dictLookup st.1 p).isSome = true ∨ (ef.2.rel = p ∧ enumHit root ignore ef)) := by
  unfold detectStep
  by_cases h1 : strEndsWith ef.2.rel ef.1 = true
  · rw [if_pos h1]
    by_cases h2 : shouldSkip ignore (root ++ "/" ++ ef.2.rel) = true
    · rw [if_pos h2]
      simp [enumHit, h2]
    · rw [if_neg h2]
      have h2' : shouldSkip ignore (root ++ "/" ++ ef.2.rel) = false :=
        Bool.eq_false_iff.mpr h2
      by_cases h3 : p = ef.2.rel
      · split <;>
          simp [dictLookup_dictSet, h3, enumHit, h1, h2']
      · split <;>
        · simp only [dictLookup_dictSet, if_neg h3]
          constructor
          · exact Or.inl
          · rintro (h | ⟨hrel, _⟩)
            · exact h
            · exact absurd hrel.symm h3
  · rw [if_neg h1]
    simp only [enumHit]
    constructor
    · exact Or.inl
    · rintro (h | ⟨_, hends, _⟩)
      · exact h
      · exact absurd hends h1

theorem detectGo_lookup_isSome (root : String) (ignore : List String) (old : Cache) :
    ∀ (pairs : List (String × FileEntry)) (st : Cache × List String) (p : String),
      ((dictLookup (detectGo root ignore old pairs st).1 p).isSome = true ↔
        (dictLookup st.1 p).isSome = true ∨
          ∃ ef ∈ pairs, ef.2.rel = p ∧ enumHit root ignore ef) := by
  intro pairs
  induction pairs with
  | nil =>
    intro st p
    simp [detectGo]
  | cons ef rest ih =>
    intro st p
    have hgo : detectGo root ignore old (ef :: rest) st =
        detectGo root ignore old rest (detectStep root ignore old ef st) := rfl
    rw [hgo, ih, detectStep_lookup_isSome]
    simp only [List.mem_cons]
    constructor
    · rintro ((h | h) | ⟨ef', hef', hrest⟩)
      · exact Or.inl h
      · exact Or.inr ⟨ef, Or.inl rfl, h⟩
      · exact Or.inr ⟨ef', Or.inr hef', hrest⟩
    · rintro (h | ⟨ef', hef' | hef', hrest⟩)
      · exact Or.inl (Or.inl h)
      · exact Or.inl (Or.inr (hef' ▸ hrest))
      · exact Or.inr ⟨ef', hef', hrest⟩

theorem detectStep_lookup_value (root : String) (ignore : List String) (old : Cache)
    (ef : String × FileEntry) (st : Cache × List String) (p : String) (v : Nat)
    (h : dictLookup (detectStep root ignore old ef st).1 p = some v) :
    dictLookup st.1 p = some v ∨ (ef.2.rel = p ∧ ef.2.content = v) := by
  unfold detectStep at h
  split at h
  · split at h
    · exact Or.inl h
    · split at h <;>
      · simp only [dictLookup_dictSet] at h
        by_cases h3 : p = ef.2.rel
        · rw [if_pos h3] at h
          exact Or.inr ⟨h3.symm, Option.some_inj.mp h⟩
        · rw [if_neg h3] at h
          exact Or.inl h
  · exact Or.inl h

theorem detectGo_lookup_value (root : String) (ignore : List String) (old : Cache) :
    ∀ (pairs : List (String × FileEntry)) (st : Cache × List String) (p : String) (v : Nat),
      dictLookup (detectGo root ignore old pairs st).1 p = some v →
      dictLookup st.1 p = some v ∨ ∃ ef ∈ pairs, ef.2.rel = p ∧ ef.2.content = v := by
  intro pairs
  induction pairs with
  | nil =>
    intro st p v h
    exact Or.inl h
  | cons ef rest ih =>
    intro st p v h
    have hgo : detectGo root ignore old (ef :: rest) st =
        detectGo root ignore old rest (detectStep root ignore old ef st) := rfl
    rw [hgo] at h
    rcases ih _ p v h with hbase | ⟨ef', hef', hval⟩
    · rcases detectStep_lookup_value root ignore old ef st p v hbase with h0 | h0
      · exact Or.inl h0
      · exact Or.inr ⟨ef, List.mem_cons_self ef rest, h0⟩
    · exact Or.inr ⟨ef', List.mem_cons_of_mem _ hef', hval⟩

theorem detectGo_changed_mono (root : String) (ignore : List String) (old : Cache) :
    ∀ (pairs : List (String × FileEntry)) (st : Cache × List String) (m : String),
      m ∈ st.2 → m ∈ (detectGo root ignore old pairs st).2 := by
  intro pairs
  induction pairs with
  | nil =>
    intro st m hm
    exact hm
  | cons ef rest ih =>
    intro st m hm
    apply ih
    unfold detectStep
    split
    · split
      · exact hm
      · split
        · exact hm
        · exact List.mem_append_left _ hm
    · exact hm

theorem detectGo_changed_nil (root : String) (ignore : List String) (old : Cache) :
    ∀ (pairs : List (String × FileEntry)) (st : Cache × List String),
      (∀ ef ∈ pairs, enumHit root ignore ef →
        dictLookup old ef.2.rel = some ef.2.content) →
      (detectGo root ignore old pairs st).2 = st.2 := by
  intro pairs
  induction pairs with
  | nil =>
    intro st _
    rfl
  | cons ef rest ih =>
    intro st hall
    have hgo : detectGo root ignore old (ef :: rest) st =
        detectGo root ignore old rest (detectStep root ignore old ef st) := rfl
    rw [hgo, ih _ (fun ef' hef' => hall ef' (List.mem_cons_of_mem _ hef'))]
    unfold detectStep
    by_cases h1 : strEndsWith ef.2.rel ef.1 = true
    · rw [if_pos h1]
      by_cases h2 : shouldSkip ignore (root ++ "/" ++ ef.2.rel) = true
      · rw [if_pos h2]
      · rw [if_neg h2]
        have hold := hall ef (List.mem_cons_self ef rest)
          ⟨h1, Bool.eq_false_iff.mpr h2⟩
        rw [if_pos hold]
    · rw [if_neg h1]

theorem detectGo_changed_mem (root : String) (ignore : List String) (old : Cache) :
    ∀ (pairs : List (String × FileEntry)) (st : Cache × List String)
      (ef : String × FileEntry), ef ∈ pairs → enumHit root ignore ef →
      dictLookup old ef.2.rel ≠ some ef.2.content →
      ef.2.rel ∈ (detectGo root ignore old pairs st).2 := by
  intro pairs
  induction pairs with
  | nil =>
    intro st ef hef
    cases hef
  | cons ef0 rest ih =>
    intro st ef hef hhit hne
    have hgo : detectGo root ignore old (ef0 :: rest) st =
        detectGo root ignore old rest (detectStep root ignore old ef0 st) := rfl
    rcases List.mem_cons.mp hef with heq | htail
    · subst heq
      rw [hgo]
      apply detectGo_changed_mono
      unfold detectStep
      rw [if_pos hhit.1, if_neg (by simp [hhit.2]), if_neg hne]
      exact List.mem_append_right _ (List.mem_singleton.mpr rfl)
    · rw [hgo]
      exact ih _ ef htail hhit hne

/-- C9: the freshly written fingerprint store holds an entry for exactly
the files enumerated in this run (matching a configured extension and not
skipped); entries of the previous store are never merged in, so a file
deleted from the tree is absent from the next store. -/
theorem store_keys_exactly_enumerated (root : String) (exts ignore : List String)
    (files : List FileEntry) (old : Cache) :
    (∀ p, (dictLookup (detectCore root exts ignore files old).1 p).isSome = true ↔
      ∃ f ∈ files, f.rel = p ∧ (∃ ext ∈ exts, strEndsWith f.rel ext = true) ∧
        shouldSkip ignore (root ++ "/" ++ f.rel) = false) ∧
    (∀ q, (∀ f ∈ files, f.rel ≠ q) →
      dictLookup (detectCore root exts ignore files old).1 q = none) := by
  have hiff : ∀ p, (dictLookup (detectCore root exts ignore files old).1 p).isSome = true ↔
      ∃ f ∈ files, f.rel = p ∧ (∃ ext ∈ exts, strEndsWith f.rel ext = true) ∧
        shouldSkip ignore (root ++ "/" ++ f.rel) = false := by
    intro p
    unfold detectCore
    rw [detectGo_lookup_isSome]
    constructor
    · rintro (habs | ⟨ef, hef, hrel, hhit⟩)
      · exact absurd habs (by simp [dictLookup])
      · obtain ⟨hext, hf⟩ := (mem_pairs_iff exts files ef).mp hef
        exact ⟨ef.2, hf, hrel, ⟨ef.1, hext, hhit.1⟩, hhit.2⟩
    · rintro ⟨f, hf, hrel, ⟨ext, hext, hends⟩, hskip⟩
      exact Or.inr ⟨(ext, f), (mem_pairs_iff exts files (ext, f)).mpr ⟨hext, hf⟩,
        hrel, hends, hskip⟩
  refine ⟨hiff, ?_⟩
  intro q habsent
  apply Option.not_isSome_iff_eq_none.mp
  intro hsome
  obtain ⟨f, hf, hrel, _⟩ := (hiff q).mp hsome
  exact habsent f hf hrel

/-- Witness for C9 at a concrete input: a previously stored path no
longer on disk vanishes from the fresh store, a present file remains. -/
theorem store_keys_exactly_enumerated_app :
    dictLookup (detectCore "proj" [".py"] [] [⟨"a.py", 1, Except.ok 1⟩]
      [("gone.py", 5), ("a.py", 1)]).1 "gone.py" = none ∧
    (dictLookup (detectCore "proj" [".py"] [] [⟨"a.py", 1, Except.ok 1⟩]
      [("gone.py", 5), ("a.py", 1)]).1 "a.py").isSome = true := by
  constructor
  · exact (store_keys_exactly_enumerated "proj" [".py"] []
      [⟨"a.py", 1, Except.ok 1⟩] [("gone.py", 5), ("a.py", 1)]).2 "gone.py"
      (by intro f hf; rw [List.mem_singleton.mp hf]; decide)
  · exact ((store_keys_exactly_enumerated "proj" [".py"] []
      [⟨"a.py", 1, Except.ok 1⟩] [("gone.py", 5), ("a.py", 1)]).1 "a.py").mpr
      ⟨⟨"a.py", 1, Except.ok 1⟩, List.mem_singleton.mpr rfl, rfl,
        ⟨".py", List.mem_singleton.mpr rfl, by decide⟩, by decide⟩

/-! ## Loading the fingerprint store (lines 55-58)

old_cache starts empty; when the cache file exists its text is fed to
json.loads, whose result (or raised parse error) is modelled as an
Except value carried by the document parameter. Nothing in
stage_change_detection or run catches the error. -/

/-- Lines 55-58: none models a missing cache file, some r the result of
json.loads on the existing file text. -/
def loadOldCache (cacheDoc : Option (Except String Cache)) : Except String Cache :=
  match cacheDoc with
  | none => Except.ok []
  | some r => r

/-- Stage 1 with the load boundary explicit: a parse error propagates
out of the stage uncaught. -/
def stageChangeDetection (root : String) (exts ignore : List String)
    (files : List FileEntry) (cacheDoc : Option (Except String Cache)) :
    Except String (Cache × List String) :=
  match loadOldCache cacheDoc with
  | Except.error e => Except.error e
  | Except.ok old => Except.ok (detectCore root exts ignore files old)

def c5files : List FileEntry := [⟨"a.py", 5, Except.ok 1⟩]

/-- C5 counterexample: a corrupt store document does not yield an empty
store and a proceeding run; the json.loads failure propagates and the
stage aborts with that error. -/
theorem corrupt_store_aborts_cex :
    stageChangeDetection "proj" [".py"] [] c5files
      (some (Except.error "Expecting value")) = Except.error "Expecting value" := rfl

/-- C5 amended: a MISSING store document fails soft (empty old cache,
run proceeds and every enumerated file is treated as changed), but a
CORRUPT store document is fatal: the parse error propagates uncaught. -/
theorem store_missing_soft_corrupt_fatal (root : String) (exts ignore : List String)
    (files : List FileEntry) :
    (stageChangeDetection root exts ignore files none =
        Except.ok (detectCore root exts ignore files []) ∧
      ∀ e, stageChangeDetection root exts ignore files (some (Except.error e)) =
        Except.error e) ∧
    (∀ f ∈ files, ∀ ext ∈ exts, strEndsWith f.rel ext = true →
      shouldSkip ignore (root ++ "/" ++ f.rel) = false →
      f.rel ∈ (detectCore root exts ignore files []).2) := by
  refine ⟨⟨rfl, fun e => rfl⟩, ?_⟩
  intro f hf ext hext hends hskip
  unfold detectCore
  exact detectGo_changed_mem root ignore [] _ _ (ext, f)
    ((mem_pairs_iff exts files (ext, f)).mpr ⟨hext, hf⟩)
    ⟨hends, hskip⟩ (by simp [dictLookup])

/-- Witness for C5 amended at a concrete input. -/
theorem store_missing_soft_corrupt_fatal_app :
    stageChangeDetection "proj" [".py"] [] c5files none =
      Except.ok (detectCore "proj" [".py"] [] c5files []) ∧
    "a.py" ∈ (detectCore "proj" [".py"] [] c5files []).2 :=
  ⟨(store_missing_soft_corrupt_fatal "proj" [".py"] [] c5files).1.1,
    (store_missing_soft_corrupt_fatal "proj" [".py"] [] c5files).2
      ⟨"a.py", 5, Except.ok 1⟩ (List.mem_singleton.mpr rfl)
      ".py" (List.mem_singleton.mpr rfl) (by decide) (by decide)⟩

/-! ## Code analysis (pipelines/6-full-stack/pipeline.py, lines 84-133)

The analysis dict maps the relative path of each successfully parsed
Python file to its payload (modelled as one summary value); a parse
failure is appended to the run-level error list with the artifact
context and the loop moves on to the next file. -/

/-- Lines 89-91: the candidate paths: every Python file under the
project, overridden when files_to_analyze is truthy (a non-empty list)
by that list filtered to Python paths. -/
def analysisCandidates (files : List FileEntry) (fta : Option (List String)) :
    List String :=
  match fta with
  | some l =>
    if l.isEmpty then (files.map FileEntry.rel).filter (fun r => strEndsWith r ".py")
    else l.filter (fun r => strEndsWith r ".py")
  | none => (files.map FileEntry.rel).filter (fun r => strEndsWith r ".py")

/-- Lines 93-124, loop body: a missing or skipped path is passed over; a
successful ast.parse records the payload under the relative path; a
parse failure appends a contextual message to the error list. -/
def analysisStep (root : String) (ignore : List String) (files : List FileEntry)
    (st : Cache × List String) (r : String) : Cache × List String :=
  match files.find? (fun f => f.rel == r) with
  | none => st
  | some f =>
    if shouldSkip ignore (root ++ "/" ++ r) = true then st
    else match f.parse with
      | Except.ok n => (dictSet st.1 r n, st.2)
      | Except.error e => (st.1, st.2 ++ ["Parse error in " ++ r ++ ": " ++ e])

def analysisGo (root : String) (ignore : List String) (files : List FileEntry) :
    List String → Cache × List String → Cache × List String
  | [], st => st
  | r :: rs, st => analysisGo root ignore files rs (analysisStep root ignore files st r)

/-- Lines 84-133: stage 2 returns the analysis dict and the error
messages appended to the run report during this stage. -/
def stageCodeAnalysis (root : String) (ignore : List String) (files : List FileEntry)
    (fta : Option (List String)) : Cache × List String :=
  analysisGo root ignore files (analysisCandidates files fta) ([], [])

theorem analysisStep_err_mono (root : String) (ignore : List String)
    (files : List FileEntry) (st : Cache × List String) (r m : String)
    (hm : m ∈ st.2) : m ∈ (analysisStep root ignore files st r).2 := by
  unfold analysisStep
  split
  · exact hm
  · split
    · exact hm
    · split
      · exact hm
      · exact List.mem_append_left _ hm

theorem analysisStep_key_mono (root : String) (ignore : List String)
    (files : List FileEntry) (st : Cache × List String) (r k : String)
    (hm : (dictLookup st.1 k).isSome = true) :
    (dictLookup (analysisStep root ignore files st r).1 k).isSome = true := by
  unfold analysisStep
  split
  · exact hm
  · split
    · exact hm
    · split
      · simp only [dictLookup_dictSet]
        by_cases hk : k = r
        · simp [hk]
        · simpa [hk] using hm
      · exact hm

theorem analysisGo_err_mono (root : String) (ignore : List String)
    (files : List FileEntry) :
    ∀ (rs : List String) (st : Cache × List String) (m : String),
      m ∈ st.2 → m ∈ (analysisGo root ignore files rs st).2 := by
  intro rs
  induction rs with
  | nil =>
    intro st m hm
    exact hm
  | cons r rs ih =>
    intro st m hm
    exact ih _ m (analysisStep_err_mono root ignore files st r m hm)

theorem analysisGo_key_mono (root : String) (ignore : List String)
    (files : List FileEntry) :
    ∀ (rs : List String) (st : Cache × List String) (k : String),
      (dictLookup st.1 k).isSome = true →
      (dictLookup (analysisGo root ignore files rs st).1 k).isSome = true := by
  intro rs
  induction rs with
  | nil =>
    intro st k hm
    exact hm
  | cons r rs ih =>
    intro st k hm
    exact ih _ k (analysisStep_key_mono root ignore files st r k hm)

theorem analysisGo_error_recorded (root : String) (ignore : List String)
    (files : List FileEntry) :
    ∀ (rs : List String) (st : Cache × List String) (r : String)
      (f : FileEntry) (e : String), r ∈ rs →
      files.find? (fun f0 => f0.rel == r) = some f →
      shouldSkip ignore (root ++ "/" ++ r) = false →
      f.parse = Except.error e →
      ("Parse error in " ++ r ++ ": " ++ e) ∈ (analysisGo root ignore files rs st).2 := by
  intro rs
  induction rs with
  | nil =>
    intro st r f e hr
    cases hr
  | cons r0 rs ih =>
    intro st r f e hr hfind hskip herr
    rcases List.mem_cons.mp hr with heq | htail
    · subst heq
      have hgo : analysisGo root ignore files (r :: rs) st =
          analysisGo root ignore files rs (analysisStep root ignore files st r) := rfl
      rw [hgo]
      apply analysisGo_err_mono
      unfold analysisStep
      simp only [hfind]
      rw [if_neg (by simp [hskip])]
      simp only [herr]
      exact List.mem_append_right _ (List.mem_singleton.mpr rfl)
    · exact ih _ r f e htail hfind hskip herr

theorem analysisGo_ok_recorded (root : String) (ignore : List String)
    (files : List FileEntry) :
    ∀ (rs : List String) (st : Cache × List String) (r : String)
      (f : FileEntry) (n : Nat), r ∈ rs →
      files.find? (fun f0 => f0.rel == r) = some f →
      shouldSkip ignore (root ++ "/" ++ r) = false →
      f.parse = Except.ok n →
      (dictLookup (analysisGo root ignore files rs st).1 r).isSome = true := by
  intro rs
  induction rs with
  | nil =>
    intro st r f n hr
    cases hr
  | cons r0 rs ih =>
    intro st r f n hr hfind hskip hok
    rcases List.mem_cons.mp hr with heq | htail
    · subst heq
      have hgo : analysisGo root ignore files (r :: rs) st =
          analysisGo root ignore files rs (analysisStep root ignore files st r) := rfl
      rw [hgo]
      apply analysisGo_key_mono
      unfold analysisStep
      simp only [hfind]
      rw [if_neg (by simp [hskip])]
      simp only [hok]
      simp [dictLookup_dictSet]
    · exact ih _ r f n htail hfind hskip hok

theorem analysisStep_key_source (root : String) (ignore : List String)
    (files : List FileEntry) (st : Cache × List String) (r k : String)
    (h : (dictLookup (analysisStep root ignore files st r).1 k).isSome = true) :
    (dictLookup st.1 k).isSome = true ∨ k = r := by
  unfold analysisStep at h
  split at h
  · exact Or.inl h
  · split at h
    · exact Or.inl h
    · split at h
      · simp only [dictLookup_dictSet] at h
        by_cases hk : k = r
        · exact Or.inr hk
        · rw [if_neg hk] at h
          exact Or.inl h
      · exact Or.inl h

theorem analysisGo_key_source (root : String) (ignore : List String)
    (files : List FileEntry) :
    ∀ (rs : List String) (st : Cache × List String) (k : String),
      (dictLookup (analysisGo root ignore files rs st).1 k).isSome = true →
      (dictLookup st.1 k).isSome = true ∨ k ∈ rs := by
  intro rs
  induction rs with
  | nil =>
    intro st k h
    exact Or.inl h
  | cons r rs ih =>
    intro st k h
    rcases ih _ k h with h0 | h0
    · rcases analysisStep_key_source root ignore files st r k h0 with h1 | h1
      · exact Or.inl h1
      · exact Or.inr (h1 ▸ List.mem_cons_self r rs)
    · exact Or.inr (List.mem_cons_of_mem _ h0)

/-- C3: if one artifact's parse raises during stage_code_analysis, the
error is caught, recorded in the run-level error list with the artifact
context, and every other artifact is still processed: any other
candidate whose parse succeeds lands in the analysis dict; the stage (a
total function here) never aborts. -/
theorem stageCodeAnalysis_error_isolated
    (root : String) (ignore : List String) (files : List FileEntry)
    (fta : Option (List String)) (x : String) (fx : FileEntry) (e : String)
    (hx : x ∈ analysisCandidates files fta)
    (hfind : files.find? (fun f0 => f0.rel == x) = some fx)
    (hskip : shouldSkip ignore (root ++ "/" ++ x) = false)
    (herr : fx.parse = Except.error e) :
    ("Parse error in " ++ x ++ ": " ++ e) ∈ (stageCodeAnalysis root ignore files fta).2 ∧
    ∀ (y : String) (fy : FileEntry) (n : Nat), y ∈ analysisCandidates files fta →
      files.find? (fun f0 => f0.rel == y) = some fy →
      shouldSkip ignore (root ++ "/" ++ y) = false →
      fy.parse = Except.ok n →
      (dictLookup (stageCodeAnalysis root ignore files fta).1 y).isSome = true := by
  constructor
  · exact analysisGo_error_recorded root ignore files _ _ x fx e hx hfind hskip herr
  · intro y fy n hy hfy hsy hoy
    exact analysisGo_ok_recorded root ignore files _ _ y fy n hy hfy hsy hoy

def c3files : List FileEntry :=
  [⟨"bad.py", 0, Except.error "boom"⟩, ⟨"good.py", 0, Except.ok 5⟩]

/-- Witness for C3 at a concrete input: the bad file's parse error is
recorded and the good file is still analyzed. -/
theorem stageCodeAnalysis_error_isolated_app :
    ("Parse error in " ++ "bad.py" ++ ": " ++ "boom")
        ∈ (stageCodeAnalysis "proj" [] c3files none).2 ∧
    (dictLookup (stageCodeAnalysis "proj" [] c3files none).1 "good.py").isSome = true := by
  have h := stageCodeAnalysis_error_isolated "proj" [] c3files none
    "bad.py" ⟨"bad.py", 0, Except.error "boom"⟩ "boom"
    (by decide) rfl (by decide) rfl
  exact ⟨h.1, h.2 "good.py" ⟨"good.py", 0, Except.ok 5⟩ 5 (by decide) rfl (by decide) rfl⟩

theorem changedModules_filter (changedFiles : List String) :
    changedModules changedFiles =
      changedModules (changedFiles.filter (fun f => strEndsWith f ".py")) := by
  suffices h : ∀ (l : List String) (acc : List String),
      l.foldl (fun acc f =>
        if strEndsWith f ".py" then setAdd acc (moduleIdOfPath f) else acc) acc =
      (l.filter (fun f => strEndsWith f ".py")).foldl (fun acc f =>
        if strEndsWith f ".py" then setAdd acc (moduleIdOfPath f) else acc) acc by
    exact h changedFiles []
  intro l
  induction l with
  | nil =>
    intro acc
    rfl
  | cons f l ih =>
    intro acc
    by_cases hf : strEndsWith f ".py" = true
    · simp only [List.foldl_cons, List.filter_cons, hf, if_true]
      exact ih _
    · have hf' : strEndsWith f ".py" = false := Bool.eq_false_iff.mpr hf
      simp only [List.foldl_cons, List.filter_cons, hf', if_false, Bool.false_eq_true]
      exact ih acc

/-- C10: only changed paths ending in the Python suffix seed resolution
and selective analysis: the changed-module set is unchanged when
non-Python entries are dropped, hence so is the affected set; and every
path recorded in the analysis dict ends in the Python suffix, whatever
files_to_analyze contained. -/
theorem only_py_seed_analysis :
    (∀ changedFiles : List String, changedModules changedFiles =
        changedModules (changedFiles.filter (fun f => strEndsWith f ".py"))) ∧
    (∀ (g : DepGraph) (changedFiles : List String),
        resolveAffected g changedFiles =
          resolveAffected g (changedFiles.filter (fun f => strEndsWith f ".py"))) ∧
    (∀ (root : String) (ignore : List String) (files : List FileEntry)
        (fta : Option (List String)) (k : String),
      (dictLookup (stageCodeAnalysis root ignore files fta).1 k).isSome = true →
      strEndsWith k ".py" = true) := by
  refine ⟨changedModules_filter, ?_, ?_⟩
  · intro g changedFiles
    unfold resolveAffected
    rw [← changedModules_filter]
  · intro root ignore files fta k h
    unfold stageCodeAnalysis at h
    rcases analysisGo_key_source root ignore files _ _ k h with h0 | h0
    · exact absurd h0 (by simp [dictLookup])
    · cases fta with
      | none =>
        simp only [analysisCandidates] at h0
        exact (List.mem_filter.mp h0).2
      | some l =>
        simp only [analysisCandidates] at h0
        split at h0
        · exact (List.mem_filter.mp h0).2
        · exact (List.mem_filter.mp h0).2

/-- Witness for C10 at a concrete input: a Markdown entry in the changed
list contributes no module, and the analyzed key ends in the Python
suffix. -/
theorem only_py_seed_analysis_app :
    changedModules ["a.py", "b.md"] =
      changedModules (["a.py", "b.md"].filter (fun f => strEndsWith f ".py")) ∧
    strEndsWith "a.py" ".py" = true :=
  ⟨only_py_seed_analysis.1 ["a.py", "b.md"],
    only_py_seed_analysis.2.2 "proj" [] [⟨"a.py", 1, Except.ok 2⟩]
      (some ["a.py", "b.md"]) "a.py" (by decide)⟩

/-! ## Run orchestration (pipelines/6-full-stack/pipeline.py, lines 331-368)

run executes change detection, then code analysis on the changed list
when it is truthy (non-empty) and on everything otherwise, then RAG
indexing, living docs and site generation, then writes the report. The
filesystem writes of one run are recorded in source order: the cache
document is written at line 73, inside stage 1, with a direct
write_text; the search index at line 173; the site stylesheet, index
page and one page per analyzed module in stage 5; the report last at
line 357. No write goes through a temp file plus rename. -/

inductive WriteEvent where
  | cacheStore (entries : Cache)
  | searchIndex
  | siteCss
  | sitePage (name : String)
  | reportFile
  deriving DecidableEq

structure RunResult where
  changed : List String
  newCache : Cache
  analysis : Cache
  errors : List String
  writes : List WriteEvent

/-- Lines 331-368: one full run against the current tree and the loaded
previous cache. The argument of stage 2 models changed if changed else
None. -/
def runPipeline (root : String) (exts ignore : List String)
    (files : List FileEntry) (old : Cache) : RunResult :=
  let det := detectCore root exts ignore files old
  let ana := stageCodeAnalysis root ignore files
    (if det.2.isEmpty then none else some det.2)
  { changed := det.2
    newCache := det.1
    analysis := ana.1
    errors := ana.2
    writes := [WriteEvent.cacheStore det.1, WriteEvent.searchIndex, WriteEvent.siteCss,
        WriteEvent.sitePage "index"] ++ ana.1.map (fun p => WriteEvent.sitePage p.1)
      ++ [WriteEvent.reportFile] }

def c6files : List FileEntry := [⟨"a.py", 1, Except.ok 1⟩]

def c6old : Cache := [("a.py", 0)]

/-- C6 counterexample: the fingerprint store is written as the very
first filesystem write of the run (inside stage 1, by plain write_text),
with at least one more write following it; its new contents differ from
the previous store, so a run aborted right after stage 1 (mid-way) has
already replaced the previous store, refuting write-at-run-end
atomicity. -/
theorem store_write_first_cex :
    (runPipeline "proj" [".py"] [] c6files c6old).writes.head? =
      some (WriteEvent.cacheStore [("a.py", 1)]) ∧
    ([("a.py", 1)] : Cache) ≠ c6old ∧
    1 < (runPipeline "proj" [".py"] [] c6files c6old).writes.length := by decide

/-- C6 amended: the store is not persisted atomically at run end; it is
written directly during change detection, the first stage: in every run
the cache write is the first of at least five filesystem writes, so an
abort after stage 1 leaves the freshly written store, not the previous
one. -/
theorem store_write_first_nonatomic (root : String) (exts ignore : List String)
    (files : List FileEntry) (old : Cache) :
    (runPipeline root exts ignore files old).writes.head? =
      some (WriteEvent.cacheStore (runPipeline root exts ignore files old).newCache) ∧
    5 ≤ (runPipeline root exts ignore files old).writes.length := by
  constructor
  · rfl
  · simp only [runPipeline, List.length_append, List.length_cons, List.length_map,
      List.length_nil]
    omega

def c2files : List FileEntry := [⟨"a.py", 7, Except.ok 3⟩]

/-- C2 counterexample: running twice with no modification does give an
empty changed set on the second run, but the second run then regenerates
everything rather than nothing: because run passes changed if changed
else None, the empty list triggers a full re-analysis, so the one Python
file is analyzed again and its page is rewritten. -/
theorem secondRun_full_reanalysis_cex :
    (runPipeline "proj" [".py"] [] c2files
        (runPipeline "proj" [".py"] [] c2files []).newCache).changed = [] ∧
    (runPipeline "proj" [".py"] [] c2files
        (runPipeline "proj" [".py"] [] c2files []).newCache).analysis = [("a.py", 3)] ∧
    WriteEvent.sitePage "a.py" ∈ (runPipeline "proj" [".py"] [] c2files
        (runPipeline "proj" [".py"] [] c2files []).newCache).writes := by decide

/-- C2 amended: with unchanged sources (and distinct relative paths on
disk), the second run's changed set is empty; but instead of zero
regenerated artifacts the second run performs a full re-analysis, equal
to analyzing with no restriction, and so regenerates every page. -/
theorem secondRun_changed_empty_full_reanalysis
    (root : String) (exts ignore : List String) (files : List FileEntry) (old : Cache)
    (hnd : (files.map FileEntry.rel).Nodup) :
    (runPipeline root exts ignore files
        (runPipeline root exts ignore files old).newCache).changed = [] ∧
    (runPipeline root exts ignore files
        (runPipeline root exts ignore files old).newCache).analysis =
      (stageCodeAnalysis root ignore files none).1 := by
  have hnil : (detectCore root exts ignore files
      (detectCore root exts ignore files old).1).2 = [] := by
    have hall : ∀ ef ∈ exts.flatMap (fun ext => files.map (fun f => (ext, f))),
        enumHit root ignore ef →
        dictLookup (detectCore root exts ignore files old).1 ef.2.rel =
          some ef.2.content := by
      intro ef hef hhit
      obtain ⟨hext, hf⟩ := (mem_pairs_iff exts files ef).mp hef
      have hsome : (dictLookup (detectCore root exts ignore files old).1
          ef.2.rel).isSome = true := by
        unfold detectCore
        rw [detectGo_lookup_isSome]
        exact Or.inr ⟨ef, hef, rfl, hhit⟩
      obtain ⟨v, hv⟩ := Option.isSome_iff_exists.mp hsome
      have hval := detectGo_lookup_value root ignore old
        (exts.flatMap (fun ext => files.map (fun f => (ext, f)))) ([], [])
        ef.2.rel v hv
      rcases hval with hbase | ⟨ef', hef', hrel, hcont⟩
      · exact absurd hbase (by simp [dictLookup])
      · have hf' : ef'.2 ∈ files := ((mem_pairs_iff exts files ef').mp hef').2
        have heq2 : ef'.2 = ef.2 := List.inj_on_of_nodup_map hnd hf' hf hrel
        rw [hv, ← hcont, heq2]
    exact detectGo_changed_nil root ignore _ _ ([], []) hall
  have hchanged : (runPipeline root exts ignore files
      (runPipeline root exts ignore files old).newCache).changed =
      (detectCore root exts ignore files
        (detectCore root exts ignore files old).1).2 := rfl
  have hana : (runPipeline root exts ignore files
      (runPipeline root exts ignore files old).newCache).analysis =
      (stageCodeAnalysis root ignore files
        (if (detectCore root exts ignore files
            (detectCore root exts ignore files old).1).2.isEmpty then none
          else some (detectCore root exts ignore files
            (detectCore root exts ignore files old).1).2)).1 := rfl
  refine ⟨hchanged.trans hnil, ?_⟩
  rw [hana, hnil]
  rfl

/-- Witness for C2 amended at a concrete input. -/
theorem secondRun_changed_empty_full_reanalysis_app :
    (runPipeline "proj" [".py"] [] c2files
        (runPipeline "proj" [".py"] [] c2files []).newCache).changed = [] ∧
    (runPipeline "proj" [".py"] [] c2files
        (runPipeline "proj" [".py"] [] c2files []).newCache).analysis =
      (stageCodeAnalysis "proj" [] c2files none).1 :=
  secondRun_changed_empty_full_reanalysis "proj" [".py"] [] c2files [] (by decide)
